import Mathlib

/-!
Shallow embedding of the typemorph pattern-matching engine
(`src/pattern-matching.ts`): the `Pattern` match protocol, the `ast`
combinator library, and the mutable match-history state, together with
theorems settling the specification claims about them.

The ts-morph `Node` abstraction is external to the engine; it is modelled
here through the exact interface the matcher consumes: a kind tag, a source
text, literal-value accessors, and named child slots holding a node, a
node list, or a primitive boolean. Object identity (used by the `matches`
Set and the `contains` seen-set) is modelled by a numeric `id` field:
distinct live objects carry distinct ids.
-/

namespace Typemorph

/-- TypeScript SyntaxKind values used by the matcher (ts 5.x numbering;
only their pairwise distinctness matters). -/
def SK.Unknown : Nat := 0
def SK.NumericLiteral : Nat := 9
def SK.StringLiteral : Nat := 11
def SK.NoSubstitutionTemplateLiteral : Nat := 15
def SK.TemplateHead : Nat := 16
def SK.TemplateMiddle : Nat := 17
def SK.TemplateTail : Nat := 18
def SK.Identifier : Nat := 80
def SK.FalseKeyword : Nat := 97
def SK.NullKeyword : Nat := 106
def SK.TrueKeyword : Nat := 112
def SK.UndefinedKeyword : Nat := 157
def SK.TupleType : Nat := 189
def SK.RestType : Nat := 191
def SK.JSDocUnknownType : Nat := 312
def SK.SyntaxList : Nat := 352

mutual
/-- Model of a ts-morph `Node`: object id, kind tag, source text, literal
accessors (`getLiteralText` / `getLiteralValue`), and named child slots
in declaration order (`getNodeProperty`). -/
inductive TsNode : Type where
  | mk (id : Nat) (kind : Nat) (text : String)
       (litStr : Option String) (litNum : Option Int)
       (slots : List (String × SlotVal)) : TsNode

/-- A named child slot value: a child node, a child node list, or a
primitive boolean flag. -/
inductive SlotVal : Type where
  | vnode : TsNode → SlotVal
  | vlist : List TsNode → SlotVal
  | vbool : Bool → SlotVal
end

def TsNode.id : TsNode → Nat
  | .mk i _ _ _ _ _ => i

def TsNode.kind : TsNode → Nat
  | .mk _ k _ _ _ _ => k

def TsNode.text : TsNode → String
  | .mk _ _ t _ _ _ => t

/-- Accessor `getLiteralText` for string-like literal nodes. -/
def TsNode.getLiteralText : TsNode → String
  | .mk _ _ _ ls _ _ => ls.getD ""

/-- Accessor `getLiteralValue` for numeric literal nodes. -/
def TsNode.getLiteralNum : TsNode → Int
  | .mk _ _ _ _ ln _ => ln.getD 0

def TsNode.slots : TsNode → List (String × SlotVal)
  | .mk _ _ _ _ _ ss => ss

/-- Accessor `node.getNodeProperty(key)`: named child slot lookup. -/
def TsNode.getNodeProperty (n : TsNode) (key : String) : Option SlotVal :=
  n.slots.lookup key

/-- The argument of `Pattern.match`: a single node or a node list. -/
inductive Input : Type where
  | one : TsNode → Input
  | list : List TsNode → Input

/-- Return value of a match predicate (`boolean | Node | Node[] | undefined`).
JavaScript `false` and `undefined` are both falsy and are handled
identically by `Pattern.match`, so they share the `falsy` constructor. -/
inductive AssertResult : Type where
  | falsy : AssertResult
  | tru : AssertResult
  | nod : TsNode → AssertResult
  | lst : List TsNode → AssertResult

/-- JavaScript truthiness of an assert result (note: an array is truthy
even when empty). -/
def AssertResult.truthy : AssertResult → Bool
  | .falsy => false
  | _ => true

/-- The `Node.isNode(result)` test of `Pattern.match`: the returned value
when it is a single node, and `none` otherwise. -/
def AssertResult.asNode : AssertResult → Option TsNode
  | .nod n => some n
  | _ => none

/-- Convert a Boolean predicate result to an assert result. -/
def boolRes (b : Bool) : AssertResult :=
  if b then .tru else .falsy

/-- Convert the value returned by an inner `pattern.match(x)` call into the
assert result that a combinator forwarding it produces. -/
def matchToRes : Option Input → AssertResult
  | none => .falsy
  | some (.one n) => .nod n
  | some (.list l) => .lst l

/-- Pure value part of `Pattern.match` (lines 43-59): a truthy result is
recorded as the returned node when `Node.isNode(result)` holds and as the
original input otherwise; a falsy result yields `undefined`. -/
def wrapResult (result : AssertResult) (input : Input) : Option Input :=
  if result.truthy then
    some (match result.asNode with
          | some n => Input.one n
          | none => input)
  else none

/-- Identity key of a match value, as used by the `matches : Set` field:
nodes are identified by object id and arrays by the ids of their
elements. -/
def inputKey : Input → Nat ⊕ List Nat
  | .one n => .inl n.id
  | .list l => .inr (l.map TsNode.id)

/-- Mutable match-history state of a `Pattern` instance. -/
structure PatternState where
  lastMatch : Option Input
  matchSet : List Input

/-- Membership test of the `matches` Set (identity-keyed). -/
def memMatches (i : Input) (ms : List Input) : Bool :=
  ms.any (fun m => decide (inputKey m = inputKey i))

/-- `matches.add(match)`: insert unless an identical element is present. -/
def addMatch (i : Input) (ms : List Input) : List Input :=
  if memMatches i ms then ms else ms ++ [i]

/-- `Pattern.match` (lines 43-59), with the instance state passed and
returned explicitly: evaluates the assert predicate; on a truthy result
records `Node.isNode(result) ? result : node` into `lastMatch` and
`matches` and returns it; otherwise returns `undefined` leaving the state
unchanged. -/
def matchStep (assert : Input → AssertResult) (st : PatternState) (input : Input) :
    Option Input × PatternState :=
  let result := assert input
  if result.truthy then
    let m := match result.asNode with
             | some n => Input.one n
             | none => input
    (some m, ⟨some m, addMatch m st.matchSet⟩)
  else (none, st)

/-- Deep embedding of the `ast` combinator library: one constructor per
combinator used by the claims, carrying exactly the construction
parameters the source records. `when` and `refine` carry the
caller-supplied function. `ast.tuple` is a smart constructor (`astTuple`
below) because the source dispatches on the last argument at construction
time; `tupleFixed` / `tupleRest` are its two outcomes. -/
inductive Pat : Type where
  | kind (k : Nat)
  | node (type : Nat) (props : Option (List (String × Pat)))
  | nodeList (p : Option Pat) (min : Nat) (max : Option Nat)
  | every (p : Pat) (min : Nat) (max : Option Nat)
  | someP (p : Pat) (min : Nat) (max : Option Nat)
  | maybeNode (p : Option Pat)
  | any
  | notP (p : Pat)
  | whenP (condition : Input → AssertResult)
  | refine (p : Pat) (transform : Input → AssertResult)
  | identifier (name : String)
  | string (value : Option String)
  | number (value : Option Int)
  | boolean (value : Option Bool)
  | nullLit
  | undefinedLit
  | tupleFixed (patterns : List Pat)
  | tupleRest (patterns : List Pat) (restPattern : Pat)
  | rest (p : Pat)
  | union (patterns : List Pat)

/-- SyntaxKind of `ast.union` patterns. -/
def SK.UnionTypeK : Nat := 192

/-- The `kind` field each combinator writes into its `Pattern` (consulted
by `ast.node` for the `ast.maybeNode` sentinel test). `ast.refine` copies
the base pattern's kind. -/
def patKind : Pat → Nat
  | .kind k => k
  | .node t _ => t
  | .nodeList _ _ _ => SK.SyntaxList
  | .every _ _ _ => SK.SyntaxList
  | .someP _ _ _ => SK.SyntaxList
  | .maybeNode _ => SK.JSDocUnknownType
  | .any => SK.Unknown
  | .notP _ => SK.Unknown
  | .whenP _ => SK.Unknown
  | .refine p _ => patKind p
  | .identifier _ => SK.Identifier
  | .string _ => SK.StringLiteral
  | .number _ => SK.NumericLiteral
  | .boolean _ => SK.TrueKeyword
  | .nullLit => SK.NullKeyword
  | .undefinedLit => SK.UndefinedKeyword
  | .tupleFixed _ => SK.TupleType
  | .tupleRest _ _ => SK.TupleType
  | .rest _ => SK.RestType
  | .union _ => SK.UnionTypeK

/-- `ast.tuple(...patterns)`: when the last argument is a rest pattern it
is popped off and used for every element past the fixed ones; otherwise a
fixed-length tuple is built. -/
def astTuple (patterns : List Pat) : Pat :=
  match patterns.getLast? with
  | some (.rest inner) => .tupleRest patterns.dropLast inner
  | _ => .tupleFixed patterns

/-- The `booleans` table (lines 162-166): a primitive boolean slot value is
promoted into a synthetic true/false literal node. -/
def booleansNode (b : Bool) : TsNode :=
  .mk 0 (if b then SK.TrueKeyword else SK.FalseKeyword)
    (if b then "true" else "false") none none []

/-- JavaScript truthiness of a slot value (`!prop`): `false` is falsy;
nodes and arrays (even empty ones) are truthy. -/
def SlotVal.truthy : SlotVal → Bool
  | .vbool b => b
  | .vnode _ => true
  | .vlist _ => true

/-- The (possibly promoted) input a slot value is matched against inside
`ast.node`: a boolean is promoted via `booleansNode`. -/
def slotInput : SlotVal → Input
  | .vnode m => .one m
  | .vlist l => .list l
  | .vbool b => .one (booleansNode b)

/-- `isStringLike` from `ast-utils.ts`. -/
def isStringLike (n : TsNode) : Bool :=
  n.kind == SK.StringLiteral || n.kind == SK.NoSubstitutionTemplateLiteral ||
  n.kind == SK.TemplateHead || n.kind == SK.TemplateMiddle || n.kind == SK.TemplateTail

/-- The upper-bound test of the list combinators
(`_opts.max && nodeList.length > _opts.max`): skipped when `max` is absent
or `0` (both falsy in JavaScript). -/
def maxExceeded (max : Option Nat) (len : Nat) : Bool :=
  match max with
  | none => false
  | some m => m != 0 && len > m

mutual

/-- The `match` predicate each combinator installs, translated clause by
clause from the corresponding `ast` factory. -/
def assertPat : Pat → Input → AssertResult
  | .kind k, i =>
    match i with
    | .list _ => .falsy
    | .one n => boolRes (n.kind == k)
  | .node ty props, i =>
    match i with
    | .list _ => .falsy
    | .one n =>
      if n.kind != ty then .falsy
      else
        match props with
        | none => .tru
        | some ps => propsLoop ps n
  | .nodeList p mn mx, i =>
    match i with
    | .one _ => .falsy
    | .list l =>
      if l.length < mn then .falsy
      else if maxExceeded mx l.length then .falsy
      else
        match p with
        | some pat => matchToRes (matchPat pat (.list l))
        | none => .tru
  | .every p mn mx, i =>
    match i with
    | .one _ => .falsy
    | .list l =>
      if l.length < mn then .falsy
      else if maxExceeded mx l.length then .falsy
      else boolRes (allNodes p l)
  | .someP p mn mx, i =>
    match i with
    | .one _ => .falsy
    | .list l =>
      if l.length < mn then .falsy
      else if maxExceeded mx l.length then .falsy
      else boolRes (anyNodes p l)
  | .maybeNode p, i =>
    match p with
    | some pat => matchToRes (matchPat pat i)
    | none => .tru
  | .any, _ => .tru
  | .notP p, i => boolRes (matchPat p i).isNone
  | .whenP condition, i => condition i
  | .refine p transform, i =>
    if (matchPat p i).isNone then .falsy else transform i
  | .identifier name, i =>
    match i with
    | .list _ => .falsy
    | .one n => boolRes (n.kind == SK.Identifier && n.text == name)
  | .string value, i =>
    match i with
    | .list _ => .falsy
    | .one n =>
      if isStringLike n then
        boolRes (match value with
                 | some s => n.getLiteralText == s
                 | none => true)
      else .falsy
  | .number value, i =>
    match i with
    | .list _ => .falsy
    | .one n =>
      if n.kind == SK.NumericLiteral then
        boolRes (match value with
                 | some v => n.getLiteralNum == v
                 | none => true)
      else .falsy
  | .boolean value, i =>
    match i with
    | .list _ => .falsy
    | .one n =>
      if n.kind == SK.TrueKeyword || n.kind == SK.FalseKeyword then
        boolRes (match value with
                 | some b => (n.kind == SK.TrueKeyword) == b
                 | none => true)
      else .falsy
  | .nullLit, i =>
    match i with
    | .list _ => .falsy
    | .one n => if n.kind == SK.NullKeyword then .tru else .falsy
  | .undefinedLit, i =>
    match i with
    | .list _ => .falsy
    | .one n =>
      if n.kind == SK.Identifier && n.text == "undefined" then .tru else .falsy
  | .tupleFixed ps, i =>
    match i with
    | .one _ => .falsy
    | .list l =>
      if l.length != ps.length then .falsy
      else boolRes (tupleElems ps l)
  | .tupleRest ps rp, i =>
    match i with
    | .one _ => .falsy
    | .list l =>
      if l.length < ps.length then .falsy
      else boolRes (tupleRestElems ps rp l)
  | .rest p, i =>
    match i with
    | .one _ => .falsy
    | .list l => boolRes (allNodes p l)
  | .union ps, i => boolRes (anyPats ps i)
termination_by p _ => (sizeOf p, 0, 0)

/-- `pattern.match(input)` with the instance state dropped: the returned
match value. -/
def matchPat (p : Pat) (i : Input) : Option Input :=
  wrapResult (assertPat p i) i
termination_by (sizeOf p, 1, 0)

/-- The slot-constraint loop of `ast.node` (lines 192-226), over the
declared slots in declaration order. An absent or falsy slot value takes
the `!prop` branch: whole-match success if the slot's pattern is the
`ast.maybeNode` sentinel, whole-match failure otherwise. A truthy boolean
is promoted via `booleansNode` before the sub-match. -/
def propsLoop : List (String × Pat) → TsNode → AssertResult
  | [], _ => .tru
  | (key, pat) :: restProps, n =>
    match n.getNodeProperty key with
    | none =>
      if patKind pat == SK.JSDocUnknownType then .tru else .falsy
    | some sv =>
      if sv.truthy then
        match matchPat pat (slotInput sv) with
        | none => .falsy
        | some _ => propsLoop restProps n
      else
        if patKind pat == SK.JSDocUnknownType then .tru else .falsy
termination_by ps _ => (sizeOf ps, 2, 0)

/-- `nodeList.every((child) => pattern.match(child))`. -/
def allNodes (p : Pat) : List TsNode → Bool
  | [] => true
  | c :: cs => (matchPat p (.one c)).isSome && allNodes p cs
termination_by l => (sizeOf p, 2, sizeOf l)

/-- `nodeList.some((child) => pattern.match(child))`. -/
def anyNodes (p : Pat) : List TsNode → Bool
  | [] => false
  | c :: cs => (matchPat p (.one c)).isSome || anyNodes p cs
termination_by l => (sizeOf p, 2, sizeOf l)

/-- `patterns.some((pattern) => pattern.match(node))` (the `ast.union`
predicate): declaration order, short-circuiting on the first success. -/
def anyPats : List Pat → Input → Bool
  | [], _ => false
  | p :: ps, i => (matchPat p i).isSome || anyPats ps i
termination_by ps _ => (sizeOf ps, 2, 0)

/-- The fixed-tuple element loop: element at each index against the
pattern at the same index (an index past the patterns yields undefined,
hence failure). -/
def tupleElems : List Pat → List TsNode → Bool
  | _, [] => true
  | [], _ :: _ => false
  | p :: ps, c :: cs => (matchPat p (.one c)).isSome && tupleElems ps cs
termination_by ps l => (sizeOf ps, 2, sizeOf l)

/-- The rest-tuple element loop: `patterns[index] ?? restPattern`. -/
def tupleRestElems : List Pat → Pat → List TsNode → Bool
  | _, _, [] => true
  | [], rp, c :: cs => (matchPat rp (.one c)).isSome && tupleRestElems [] rp cs
  | p :: ps, rp, c :: cs => (matchPat p (.one c)).isSome && tupleRestElems ps rp cs
termination_by ps rp l => (sizeOf ps + sizeOf rp, 2, sizeOf l)

end

mutual

/-- Strict descendants of a node in depth-first pre-order, as visited by
the external `node.forEachDescendant` driver: child nodes come from the
named slots in declaration order, each followed by its own subtree. -/
def nodeDesc : TsNode → List TsNode
  | .mk _ _ _ _ _ slots => slotsDesc slots

def slotsDesc : List (String × SlotVal) → List TsNode
  | [] => []
  | (_, sv) :: restSlots => slotDesc sv ++ slotsDesc restSlots

def slotDesc : SlotVal → List TsNode
  | .vnode m => m :: nodeDesc m
  | .vlist l => listDesc l
  | .vbool _ => []

def listDesc : List TsNode → List TsNode
  | [] => []
  | m :: ms => (m :: nodeDesc m) ++ listDesc ms

end

/-- The `until && until.match(child)` boundary test of `ast.contains`. -/
def untilMatches (untilP : Option Pat) (c : TsNode) : Bool :=
  match untilP with
  | some up => (matchPat up (.one c)).isSome
  | none => false

/-- The `forEachDescendant` callback loop of `ast.contains` (lines
327-344), over the pre-order descendant list with the per-instance seen
set (of node identities) threaded through: a seen child is skipped, an
`until`-matched child stops the traversal returning nothing, an
inner-matched child stops it returning the original node, and any other
child is added to the seen set. -/
def containsLoop (inner : Pat) (untilP : Option Pat) (orig : TsNode) :
    List TsNode → List Nat → Option TsNode × List Nat
  | [], seen => (none, seen)
  | c :: cs, seen =>
    if c.id ∈ seen then containsLoop inner untilP orig cs seen
    else if untilMatches untilP c then (none, seen)
    else if (matchPat inner (.one c)).isSome then (some orig, seen)
    else containsLoop inner untilP orig cs (c.id :: seen)

/-- The `ast.contains(pattern, until)` match predicate (lines 321-347),
with the captured `seen` set explicit: a node list never matches; for a
single node, the descendant search decides, and a found descendant makes
the predicate return the original node. -/
def containsAssert (inner : Pat) (untilP : Option Pat) (seen : List Nat) :
    Input → AssertResult × List Nat
  | .list _ => (.falsy, seen)
  | .one n =>
    match containsLoop inner untilP n (nodeDesc n) seen with
    | (some orig, seen') => (.nod orig, seen')
    | (none, seen') => (.falsy, seen')

/-- `Pattern.match` of an `ast.contains` pattern: the predicate above fed
through the match protocol. -/
def containsMatch (inner : Pat) (untilP : Option Pat) (seen : List Nat) (i : Input) :
    Option Input × List Nat :=
  let r := containsAssert inner untilP seen i
  (wrapResult r.1 i, r.2)

/-- A sequence of `pattern.match` invocations on one `Pattern` instance,
one assert evaluation per call (the assert function is passed per call so
that predicates whose outcome depends on instance state, such as
`ast.contains`, are covered by the state-growth results). -/
def runSeq : List ((Input → AssertResult) × Input) → PatternState → PatternState
  | [], st => st
  | (a, i) :: calls, st => runSeq calls (matchStep a st i).2

/-! Concrete nodes and patterns used to instantiate the claims. Kind tags
500, 600 and 700 stand for arbitrary non-literal node kinds. -/

def nodeA : TsNode := .mk 1 500 "a" none none []

def nodeB : TsNode := .mk 2 500 "b" none none []

def nodeC : TsNode := .mk 3 500 "c" none none []

/-- A `when`-style pattern whose predicate redirects every match to
`nodeB` (the predicate type admits returning a node). -/
def fxRedirect : Pat := .whenP (fun _ => .nod nodeB)

/-- A refine transform that accepts everything except the node with
object id 1 (`nodeA`). -/
def fxTransform : Input → AssertResult := fun i =>
  match i with
  | .one n => if n.id == 1 then .falsy else .tru
  | .list _ => .tru

def fxIdentY : TsNode := .mk 4 SK.Identifier "y" none none []

/-- A node of kind 500 that lacks the slot `a` and whose slot `b` holds
the identifier `y`. -/
def fxMissingSlotNode : TsNode := .mk 5 500 "m" none none [("b", .vnode fxIdentY)]

/-- A structural pattern declaring a `maybeNode` slot `a` and an
identifier slot `b` that `fxMissingSlotNode` fails. -/
def fxMaybePat : Pat := .node 500 (some [("a", .maybeNode none), ("b", .identifier "x")])

def fxFlagFalseNode : TsNode := .mk 6 600 "ff" none none [("flag", .vbool false)]

def fxFlagTrueNode : TsNode := .mk 7 600 "ft" none none [("flag", .vbool true)]

def fxBoolFalsePat : Pat := .node 600 (some [("flag", .boolean (some false))])

def fxBoolTruePat : Pat := .node 600 (some [("flag", .boolean (some true))])

def fxLeaf : TsNode := .mk 11 SK.Identifier "leaf" none none []

def fxRoot : TsNode := .mk 10 700 "root" none none [("child", .vnode fxLeaf)]

/-! Helper lemmas about the match protocol. -/

theorem wrapResult_boolRes (b : Bool) (i : Input) :
    wrapResult (boolRes b) i = if b then some i else none := by
  cases b <;> rfl

theorem wrapResult_ne_none (r : AssertResult) (i : Input) :
    wrapResult r i ≠ none ↔ r.truthy = true := by
  cases r <;> simp [wrapResult, AssertResult.truthy, AssertResult.asNode]

theorem matchPat_isSome (p : Pat) (i : Input) :
    (matchPat p i).isSome = (assertPat p i).truthy := by
  simp only [matchPat]
  cases assertPat p i <;>
    simp [wrapResult, AssertResult.truthy, AssertResult.asNode]

theorem inputKey_mem_addMatch (m : Input) (ms : List Input) :
    inputKey m ∈ (addMatch m ms).map inputKey := by
  unfold addMatch
  split
  · rename_i h
    unfold memMatches at h
    rw [List.any_eq_true] at h
    obtain ⟨x, hx, hk⟩ := h
    rw [List.mem_map]
    exact ⟨x, hx, of_decide_eq_true hk⟩
  · simp

/-- C1. The `Pattern.match` protocol as implemented: an assert result that
is a single node is recorded (into `lastMatch` and the `matches` set) and
returned; any other truthy result — plain `true` but also a node list —
records and returns the original input; a falsy result records nothing
and returns `undefined`. -/
theorem C1_match_protocol (a : Input → AssertResult) (st : PatternState) (i : Input) :
    (∀ n, a i = .nod n →
      (matchStep a st i).1 = some (.one n) ∧
      (matchStep a st i).2.lastMatch = some (.one n) ∧
      inputKey (.one n) ∈ ((matchStep a st i).2.matchSet.map inputKey)) ∧
    ((a i = .tru ∨ ∃ l, a i = .lst l) →
      (matchStep a st i).1 = some i ∧
      (matchStep a st i).2.lastMatch = some i ∧
      inputKey i ∈ ((matchStep a st i).2.matchSet.map inputKey)) ∧
    (a i = .falsy → (matchStep a st i).1 = none ∧ (matchStep a st i).2 = st) := by
  refine ⟨?_, ?_, ?_⟩
  · intro n hn
    have hms : (matchStep a st i).2.matchSet = addMatch (Input.one n) st.matchSet := by
      simp [matchStep, hn, AssertResult.truthy, AssertResult.asNode]
    exact ⟨by simp [matchStep, hn, AssertResult.truthy, AssertResult.asNode],
           by simp [matchStep, hn, AssertResult.truthy, AssertResult.asNode],
           hms ▸ inputKey_mem_addMatch _ _⟩
  · have key : ∀ h : (a i).truthy = true ∧ (a i).asNode = none,
        (matchStep a st i).1 = some i ∧
        (matchStep a st i).2.lastMatch = some i ∧
        inputKey i ∈ ((matchStep a st i).2.matchSet.map inputKey) := by
      rintro ⟨h1, h2⟩
      have hms : (matchStep a st i).2.matchSet = addMatch i st.matchSet := by
        simp [matchStep, h1, h2]
      exact ⟨by simp [matchStep, h1, h2], by simp [matchStep, h1, h2],
             hms ▸ inputKey_mem_addMatch _ _⟩
    rintro (h | ⟨l, h⟩) <;>
      exact key ⟨by simp [h, AssertResult.truthy], by simp [h, AssertResult.asNode]⟩
  · intro h
    simp [matchStep, h, AssertResult.truthy]

/-- C1 witness: the three protocol cases at concrete inputs. -/
theorem C1_match_protocol_witness :
    (matchStep (fun _ => .nod nodeB) ⟨none, []⟩ (.one nodeA)).1 = some (.one nodeB) ∧
    (matchStep (fun _ => .tru) ⟨none, []⟩ (.one nodeA)).1 = some (.one nodeA) ∧
    (matchStep (fun _ => .falsy) ⟨none, []⟩ (.one nodeA)).1 = none :=
  ⟨((C1_match_protocol (fun _ => .nod nodeB) ⟨none, []⟩ (.one nodeA)).1 nodeB rfl).1,
   ((C1_match_protocol (fun _ => .tru) ⟨none, []⟩ (.one nodeA)).2.1 (Or.inl rfl)).1,
   ((C1_match_protocol (fun _ => .falsy) ⟨none, []⟩ (.one nodeA)).2.2 rfl).1⟩

/-- C1 counterexample: a predicate returning the truthy node list
`[nodeB]` does not have that list recorded or returned — `Pattern.match`
only redirects when `Node.isNode(result)` holds, and an array is not a
node, so the original input is returned instead. -/
theorem C1_list_result_cex :
    (matchStep (fun _ => .lst [nodeB]) ⟨none, []⟩ (.one nodeA)).1 = some (.one nodeA) ∧
    (Input.one nodeA ≠ Input.list [nodeB]) := by
  constructor
  · rfl
  · simp

/-- Unfolding equation of `matchPat`. -/
theorem matchPat_def (p : Pat) (i : Input) :
    matchPat p i = wrapResult (assertPat p i) i := by
  simp only [matchPat]

/-- C2. Evaluation of `ast.node` at the failing input: the pattern
declares slot `a` as `ast.maybeNode` and slot `b` as `ast.identifier "x")`;
the candidate node lacks slot `a` and holds identifier `y` in slot `b`.
The absent `maybeNode` slot makes the `!prop` branch `return true`,
accepting the whole node even though the remaining declared slot `b`
fails its sub-pattern (second conjunct). -/
theorem C2_maybeNode_absent_accepts_node :
    matchPat fxMaybePat (.one fxMissingSlotNode) = some (.one fxMissingSlotNode) ∧
    matchPat (.identifier "x") (.one fxIdentY) = none := by
  constructor
  · rw [matchPat_def]
    have hprop : fxMissingSlotNode.getNodeProperty "a" = none := rfl
    have hpl : propsLoop [("a", Pat.maybeNode none), ("b", Pat.identifier "x")]
        fxMissingSlotNode = .tru := by
      simp only [propsLoop, hprop]
      norm_num [patKind, SK.JSDocUnknownType]
    have ha : assertPat fxMaybePat (.one fxMissingSlotNode) = .tru := by
      simp only [fxMaybePat, assertPat]
      norm_num [fxMissingSlotNode, TsNode.kind]
      exact hpl
    rw [ha]
    rfl
  · rw [matchPat_def]
    have ha : assertPat (.identifier "x") (.one fxIdentY) = .falsy := by
      simp only [assertPat]
      norm_num [fxIdentY, TsNode.text, boolRes]
      intro _ h
      exact absurd h (by decide)
    rw [ha]
    rfl

/-- C3 counterexample: the base pattern redirects its match to `nodeB`,
and the transform accepts `nodeB` (the matched value) while rejecting
`nodeA` (the input). Were the transform invoked on the matched value, the
refined pattern would succeed; it fails, because `ast.refine` passes the
original input to the transform. -/
theorem C3_transform_input_cex :
    matchPat fxRedirect (.one nodeA) = some (.one nodeB) ∧
    fxTransform (.one nodeB) = .tru ∧
    matchPat (.refine fxRedirect fxTransform) (.one nodeA) = none := by
  refine ⟨?_, ?_, ?_⟩ <;>
    simp [matchPat, assertPat, wrapResult, AssertResult.truthy, AssertResult.asNode,
      fxRedirect, fxTransform, nodeA, nodeB, TsNode.id]

/-- C3. `ast.refine` as implemented: the refined pattern fails when the
base pattern fails; when the base pattern succeeds the transform is
invoked on the ORIGINAL input (not on the possibly redirected matched
value), and the refined result follows the match protocol on the
transform's return: a single node redirects the match, `true` and any
other truthy value (a node list included) accept with the input as the
match, a falsy value rejects. -/
theorem C3_refine_protocol (p : Pat) (f : Input → AssertResult) (i : Input) :
    (matchPat p i = none → matchPat (.refine p f) i = none) ∧
    (matchPat p i ≠ none →
      (∀ m, f i = .nod m → matchPat (.refine p f) i = some (.one m)) ∧
      (f i = .tru → matchPat (.refine p f) i = some i) ∧
      (∀ l, f i = .lst l → matchPat (.refine p f) i = some i) ∧
      (f i = .falsy → matchPat (.refine p f) i = none)) := by
  have hassert : assertPat (.refine p f) i =
      if (matchPat p i).isNone then .falsy else f i := by
    simp [assertPat]
  constructor
  · intro h
    rw [matchPat_def, hassert, h]
    simp [wrapResult, AssertResult.truthy, Option.isNone]
  · intro h
    have hnone : (matchPat p i).isNone = false := by
      cases hm : matchPat p i
      · exact absurd hm h
      · simp
    refine ⟨?_, ?_, ?_, ?_⟩
    · intro m hm
      rw [matchPat_def, hassert, hnone, hm]
      simp [wrapResult, AssertResult.truthy, AssertResult.asNode]
    · intro hm
      rw [matchPat_def, hassert, hnone, hm]
      simp [wrapResult, AssertResult.truthy, AssertResult.asNode]
    · intro l hm
      rw [matchPat_def, hassert, hnone, hm]
      simp [wrapResult, AssertResult.truthy, AssertResult.asNode]
    · intro hm
      rw [matchPat_def, hassert, hnone, hm]
      simp [wrapResult, AssertResult.truthy]

/-- C3 witness: refining `ast.any` with an always-true transform matches
and records the input. -/
theorem C3_refine_protocol_witness :
    matchPat (.refine .any (fun _ => .tru)) (.one nodeA) = some (.one nodeA) :=
  ((C3_refine_protocol .any (fun _ => .tru) (.one nodeA)).2
    (by simp [matchPat, assertPat, wrapResult, AssertResult.truthy, AssertResult.asNode])).2.1
    rfl

/-- C4 counterexample: the first-listed pattern redirects its own match
to `nodeB`, and the input also satisfies the second pattern; the union's
match nevertheless returns the original input `nodeA`, not the first
pattern's match result `nodeB` — `ast.union`'s predicate is the boolean
`patterns.some(...)`. -/
theorem C4_union_input_cex :
    matchPat fxRedirect (.one nodeA) = some (.one nodeB) ∧
    matchPat .any (.one nodeA) = some (.one nodeA) ∧
    matchPat (.union [fxRedirect, .any]) (.one nodeA) = some (.one nodeA) ∧
    Input.one nodeA ≠ Input.one nodeB := by
  refine ⟨?_, ?_, ?_, ?_⟩
  · simp [matchPat, assertPat, wrapResult, AssertResult.truthy, AssertResult.asNode, fxRedirect]
  · simp [matchPat, assertPat, wrapResult, AssertResult.truthy, AssertResult.asNode]
  · simp [matchPat, assertPat, anyPats, wrapResult, boolRes, AssertResult.truthy,
      AssertResult.asNode, fxRedirect]
  · simp [nodeA, nodeB]

/-- C4. `ast.union` as implemented: the sub-patterns are tried in
declaration order and evaluation short-circuits at the first success
(the tail is irrelevant once the head succeeds, and an empty union never
matches); on success the union records and returns the ORIGINAL input,
its predicate being boolean. -/
theorem C4_union_order (p : Pat) (ps : List Pat) (i : Input) :
    (matchPat p i ≠ none → matchPat (.union (p :: ps)) i = some i) ∧
    (matchPat p i = none → matchPat (.union (p :: ps)) i = matchPat (.union ps) i) ∧
    matchPat (.union []) i = none := by
  have h1 : ∀ qs : List Pat, matchPat (.union qs) i = wrapResult (boolRes (anyPats qs i)) i := by
    intro qs
    rw [matchPat_def]
    simp [assertPat]
  refine ⟨?_, ?_, ?_⟩
  · intro h
    have hs : (matchPat p i).isSome = true := Option.ne_none_iff_isSome.mp h
    rw [h1]
    simp [anyPats, hs, wrapResult_boolRes]
  · intro h
    rw [h1, h1]
    simp [anyPats, h]
  · rw [h1]
    simp [anyPats, wrapResult_boolRes]

/-- C4 witness: a one-pattern union at a concrete input. -/
theorem C4_union_order_witness :
    matchPat (.union [.any]) (.one nodeA) = some (.one nodeA) :=
  (C4_union_order .any [] (.one nodeA)).1
    (by simp [matchPat, assertPat, wrapResult, AssertResult.truthy, AssertResult.asNode])

/-- C5. Evaluation of `ast.node` at the failing input: a slot holding the
primitive boolean `false` is caught by the JavaScript falsiness test
`!prop` and treated like an absent slot, so it is never promoted and
`ast.boolean(false)` fails on it (first conjunct) — although
`ast.boolean(false)` does match the synthetic false literal that the
promotion would produce (second conjunct), and a `true`-valued slot is
promoted and matched as documented (third conjunct). -/
theorem C5_false_flag_treated_absent :
    matchPat fxBoolFalsePat (.one fxFlagFalseNode) = none ∧
    matchPat (.boolean (some false)) (.one (booleansNode false)) =
      some (.one (booleansNode false)) ∧
    matchPat fxBoolTruePat (.one fxFlagTrueNode) = some (.one fxFlagTrueNode) := by
  have hbf : matchPat (.boolean (some false)) (.one (booleansNode false)) =
      some (.one (booleansNode false)) := by
    rw [matchPat_def]
    have ha : assertPat (.boolean (some false)) (.one (booleansNode false)) = .tru := by
      simp only [assertPat]
      norm_num [booleansNode, TsNode.kind, SK.TrueKeyword, SK.FalseKeyword, boolRes]
    rw [ha]
    rfl
  have hbt : matchPat (.boolean (some true)) (.one (booleansNode true)) =
      some (.one (booleansNode true)) := by
    rw [matchPat_def]
    have ha : assertPat (.boolean (some true)) (.one (booleansNode true)) = .tru := by
      simp only [assertPat]
      norm_num [booleansNode, TsNode.kind, SK.TrueKeyword, SK.FalseKeyword, boolRes]
    rw [ha]
    rfl
  refine ⟨?_, hbf, ?_⟩
  · rw [matchPat_def]
    have hprop : fxFlagFalseNode.getNodeProperty "flag" = some (.vbool false) := rfl
    have hpl : propsLoop [("flag", Pat.boolean (some false))] fxFlagFalseNode = .falsy := by
      simp only [propsLoop, hprop]
      norm_num [SlotVal.truthy, patKind, SK.JSDocUnknownType, SK.TrueKeyword]
    have ha : assertPat fxBoolFalsePat (.one fxFlagFalseNode) = .falsy := by
      simp only [fxBoolFalsePat, assertPat]
      norm_num [fxFlagFalseNode, TsNode.kind]
      exact hpl
    rw [ha]
    rfl
  · rw [matchPat_def]
    have hprop : fxFlagTrueNode.getNodeProperty "flag" = some (.vbool true) := rfl
    have hpl : propsLoop [("flag", Pat.boolean (some true))] fxFlagTrueNode = .tru := by
      simp only [propsLoop, hprop]
      norm_num [SlotVal.truthy, slotInput, hbt, propsLoop]
    have ha : assertPat fxBoolTruePat (.one fxFlagTrueNode) = .tru := by
      simp only [fxBoolTruePat, assertPat]
      norm_num [fxFlagTrueNode, TsNode.kind]
      exact hpl
    rw [ha]
    rfl

/-- `ast.tuple` with a trailing rest pattern pops it off and builds the
rest-tuple form. -/
theorem astTuple_concat_rest (ps : List Pat) (R : Pat) :
    astTuple (ps ++ [.rest R]) = .tupleRest ps R := by
  simp [astTuple, List.getLast?_concat, List.dropLast_concat]

/-- Characterization of the `ast.rest` element loop. -/
theorem allNodes_iff (p : Pat) (l : List TsNode) :
    allNodes p l = true ↔ ∀ c ∈ l, matchPat p (.one c) ≠ none := by
  induction l with
  | nil => simp [allNodes]
  | cons c cs ih =>
    simp [allNodes, ih, ← Option.ne_none_iff_isSome]

/-- Characterization of the rest-tuple element loop for lists at least as
long as the fixed patterns. -/
theorem tupleRestElems_iff (R : Pat) :
    ∀ (ps : List Pat) (l : List TsNode), ps.length ≤ l.length →
    (tupleRestElems ps R l = true ↔
      (List.Forall₂ (fun p c => matchPat p (.one c) ≠ none) ps (l.take ps.length) ∧
       ∀ c ∈ l.drop ps.length, matchPat R (.one c) ≠ none)) := by
  intro ps
  induction ps with
  | nil =>
    intro l _
    have hrw : tupleRestElems [] R l = allNodes R l := by
      induction l with
      | nil => simp [tupleRestElems, allNodes]
      | cons c cs ihl => simp [tupleRestElems, allNodes, ihl]
    rw [hrw]
    simp [allNodes_iff]
  | cons p ps ih =>
    intro l hlen
    cases l with
    | nil => simp at hlen
    | cons c cs =>
      have hlen' : ps.length ≤ cs.length := by simpa using hlen
      simp [tupleRestElems, List.forall₂_cons, ih cs hlen',
        ← Option.ne_none_iff_isSome, and_assoc]

/-- C6. `ast.tuple(P1, ..., PN, rest(R))` on a node list succeeds exactly
when the list has at least N elements, each of the first N elements
matches the pattern at its index, and every element past index N matches
the rest pattern — in particular a list of exactly N elements succeeds
with the rest pattern vacuously satisfied (the dropped suffix is empty). -/
theorem C6_tuple_trailing_rest (ps : List Pat) (R : Pat) (l : List TsNode) :
    matchPat (astTuple (ps ++ [.rest R])) (.list l) ≠ none ↔
      (ps.length ≤ l.length ∧
       List.Forall₂ (fun p c => matchPat p (.one c) ≠ none) ps (l.take ps.length) ∧
       ∀ c ∈ l.drop ps.length, matchPat R (.one c) ≠ none) := by
  rw [astTuple_concat_rest, matchPat_def]
  have hassert : assertPat (.tupleRest ps R) (.list l) =
      if l.length < ps.length then .falsy else boolRes (tupleRestElems ps R l) := by
    simp [assertPat]
  rw [hassert]
  by_cases h : l.length < ps.length
  · simp only [h, if_true]
    constructor
    · intro hne
      simp [wrapResult, AssertResult.truthy] at hne
    · rintro ⟨h1, -⟩
      omega
  · have hle : ps.length ≤ l.length := Nat.le_of_not_lt h
    have hiff := tupleRestElems_iff R ps l hle
    simp only [h, if_false, wrapResult_boolRes]
    cases hb : tupleRestElems ps R l
    · rw [hb] at hiff
      simp only [Bool.false_eq_true, false_iff] at hiff
      simp [hiff, hle]
    · rw [hb] at hiff
      simp only [true_iff] at hiff
      simp only [if_true]
      simp [hle, hiff.1]
      exact hiff.2

mutual

/-- Every pre-order descendant of a node is structurally smaller than the
node: the descendant list never contains the node itself. -/
theorem nodeDesc_sizeOf : ∀ (n : TsNode), ∀ c ∈ nodeDesc n, sizeOf c < sizeOf n
  | .mk i k t ls ln slots, c, hc => by
    have h1 : c ∈ slotsDesc slots := by simpa [nodeDesc] using hc
    have h2 := slotsDesc_sizeOf slots c h1
    simp only [TsNode.mk.sizeOf_spec]
    omega

theorem slotsDesc_sizeOf :
    ∀ (ss : List (String × SlotVal)), ∀ c ∈ slotsDesc ss, sizeOf c < sizeOf ss
  | (key, sv) :: restSlots, c, hc => by
    have hc' : c ∈ slotDesc sv ∨ c ∈ slotsDesc restSlots := by
      simpa [slotsDesc] using hc
    rcases hc' with h | h
    · have := slotDesc_sizeOf sv c h
      simp only [List.cons.sizeOf_spec, Prod.mk.sizeOf_spec]
      omega
    · have := slotsDesc_sizeOf restSlots c h
      simp only [List.cons.sizeOf_spec]
      omega
  | [], c, hc => by simp [slotsDesc] at hc

theorem slotDesc_sizeOf : ∀ (sv : SlotVal), ∀ c ∈ slotDesc sv, sizeOf c < sizeOf sv
  | .vnode m, c, hc => by
    have hc' : c = m ∨ c ∈ nodeDesc m := by simpa [slotDesc] using hc
    rcases hc' with rfl | h
    · simp only [SlotVal.vnode.sizeOf_spec]
      omega
    · have := nodeDesc_sizeOf m c h
      simp only [SlotVal.vnode.sizeOf_spec]
      omega
  | .vlist ms, c, hc => by
    have h1 : c ∈ listDesc ms := by simpa [slotDesc] using hc
    have := listDesc_sizeOf ms c h1
    simp only [SlotVal.vlist.sizeOf_spec]
    omega
  | .vbool b, c, hc => by simp [slotDesc] at hc

theorem listDesc_sizeOf : ∀ (ms : List TsNode), ∀ c ∈ listDesc ms, sizeOf c < sizeOf ms
  | m :: rest, c, hc => by
    have hc' : c = m ∨ c ∈ nodeDesc m ∨ c ∈ listDesc rest := by
      simpa [listDesc] using hc
    rcases hc' with rfl | h | h
    · simp only [List.cons.sizeOf_spec]
      omega
    · have := nodeDesc_sizeOf m c h
      simp only [List.cons.sizeOf_spec]
      omega
    · have := listDesc_sizeOf rest c h
      simp only [List.cons.sizeOf_spec]
      omega
  | [], c, hc => by simp [listDesc] at hc

end

/-- The `contains` loop returns either nothing or the original node. -/
theorem containsLoop_shape (inner : Pat) (untilP : Option Pat) (orig : TsNode) :
    ∀ (rest : List TsNode) (seen : List Nat),
      (containsLoop inner untilP orig rest seen).1 = none ∨
      (containsLoop inner untilP orig rest seen).1 = some orig := by
  intro rest
  induction rest with
  | nil =>
    intro seen
    left
    simp [containsLoop]
  | cons c cs ih =>
    intro seen
    by_cases h1 : c.id ∈ seen
    · simpa [containsLoop, h1] using ih seen
    · by_cases h2 : untilMatches untilP c = true
      · left
        simp [containsLoop, h1, h2]
      · by_cases h3 : (matchPat inner (.one c)).isSome = true
        · right
          simp [containsLoop, h1, h2, h3]
        · simpa [containsLoop, h1, h2, h3] using ih (c.id :: seen)

/-- The `contains` loop finds the original node exactly when, scanning the
descendant list in order, some element matched by the inner pattern and
not by the `until` pattern occurs with no `until`-matched element before
it — provided the node identities are distinct and none is already in the
seen set. -/
theorem containsLoop_found_iff (inner : Pat) (untilP : Option Pat) (orig : TsNode) :
    ∀ (rest : List TsNode) (seen : List Nat),
      (∀ c ∈ rest, c.id ∉ seen) → (rest.map TsNode.id).Nodup →
      ((containsLoop inner untilP orig rest seen).1 = some orig ↔
        ∃ pre c suf, rest = pre ++ c :: suf ∧
          untilMatches untilP c = false ∧ (matchPat inner (.one c)).isSome = true ∧
          ∀ d ∈ pre, untilMatches untilP d = false) := by
  intro rest
  induction rest with
  | nil =>
    intro seen _ _
    constructor
    · intro h
      simp [containsLoop] at h
    · rintro ⟨pre, c, suf, heq, -⟩
      exact absurd heq.symm (List.append_ne_nil_of_right_ne_nil pre (by simp))
  | cons c cs ih =>
    intro seen hseen hnodup
    have hc : c.id ∉ seen := hseen c (by simp)
    rw [List.map_cons, List.nodup_cons] at hnodup
    obtain ⟨hcnotin, hnodup'⟩ := hnodup
    by_cases h2 : untilMatches untilP c = true
    · rw [show (containsLoop inner untilP orig (c :: cs) seen).1 = none from by
        simp [containsLoop, hc, h2]]
      constructor
      · intro h
        exact absurd h (by simp)
      · rintro ⟨pre, d, suf, heq, hdu, hdi, hpre⟩
        cases pre with
        | nil =>
          simp only [List.nil_append, List.cons.injEq] at heq
          rw [← heq.1] at hdu
          rw [h2] at hdu
          exact absurd hdu (by simp)
        | cons e pre' =>
          simp only [List.cons_append, List.cons.injEq] at heq
          have := hpre e (by simp)
          rw [← heq.1] at this
          rw [h2] at this
          exact absurd this (by simp)
    · have h2' : untilMatches untilP c = false := by
        cases hu : untilMatches untilP c
        · rfl
        · exact absurd hu h2
      by_cases h3 : (matchPat inner (.one c)).isSome = true
      · rw [show (containsLoop inner untilP orig (c :: cs) seen).1 = some orig from by
          simp [containsLoop, hc, h2, h3]]
        constructor
        · intro _
          exact ⟨[], c, cs, rfl, h2', h3, by simp⟩
        · intro _
          rfl
      · have h3' : (matchPat inner (.one c)).isSome = false := by
          cases hm : (matchPat inner (.one c)).isSome
          · rfl
          · exact absurd hm h3
        have hseen' : ∀ d ∈ cs, d.id ∉ (c.id :: seen) := by
          intro d hd
          rw [List.mem_cons]
          rintro (hdc | hds)
          · exact hcnotin (hdc ▸ List.mem_map_of_mem TsNode.id hd)
          · exact hseen d (List.mem_cons_of_mem c hd) hds
        rw [show containsLoop inner untilP orig (c :: cs) seen =
            containsLoop inner untilP orig cs (c.id :: seen) from by
          simp [containsLoop, hc, h2, h3']]
        rw [ih (c.id :: seen) hseen' hnodup']
        constructor
        · rintro ⟨pre, d, suf, heq, hdu, hdi, hpre⟩
          refine ⟨c :: pre, d, suf, by simp [heq], hdu, hdi, ?_⟩
          intro e he
          rcases List.mem_cons.mp he with rfl | he'
          · exact h2'
          · exact hpre e he'
        · rintro ⟨pre, d, suf, heq, hdu, hdi, hpre⟩
          cases pre with
          | nil =>
            simp only [List.nil_append, List.cons.injEq] at heq
            rw [← heq.1] at hdi
            rw [h3'] at hdi
            exact absurd hdi (by simp)
          | cons e pre' =>
            simp only [List.cons_append, List.cons.injEq] at heq
            exact ⟨pre', d, suf, heq.2, hdu, hdi,
              fun x hx => hpre x (List.mem_cons_of_mem e hx)⟩

/-- C7. `ast.contains(P, until)` matched against a single node with a
fresh seen set: it succeeds exactly when the depth-first pre-order list of
the node's own strict descendants contains an element matching `P` (and
not matched by `until`) with no `until`-matched element before it; on
success the recorded and returned match is the original node; a node list
never matches; and the node itself is never among the searched
descendants. The per-instance identity assumption is that the descendant
objects carry distinct ids. -/
theorem C7_contains_search (inner : Pat) (untilP : Option Pat) (n : TsNode)
    (hids : ((nodeDesc n).map TsNode.id).Nodup) :
    ((containsMatch inner untilP [] (.one n)).1 ≠ none ↔
      ∃ pre c suf, nodeDesc n = pre ++ c :: suf ∧
        untilMatches untilP c = false ∧ (matchPat inner (.one c)).isSome = true ∧
        ∀ d ∈ pre, untilMatches untilP d = false) ∧
    ((containsMatch inner untilP [] (.one n)).1 ≠ none →
      (containsMatch inner untilP [] (.one n)).1 = some (.one n)) ∧
    (∀ l, (containsMatch inner untilP [] (.list l)).1 = none) ∧
    n ∉ nodeDesc n := by
  have hiff := containsLoop_found_iff inner untilP n (nodeDesc n) [] (by simp) hids
  have hshape := containsLoop_shape inner untilP n (nodeDesc n) []
  have hlist : ∀ l, (containsMatch inner untilP [] (.list l)).1 = none := by
    intro l
    simp [containsMatch, containsAssert, wrapResult, AssertResult.truthy]
  have hself : n ∉ nodeDesc n := fun h => absurd (nodeDesc_sizeOf n n h) (lt_irrefl _)
  rcases hres : containsLoop inner untilP n (nodeDesc n) [] with ⟨ro, rs⟩
  rw [hres] at hiff hshape
  simp only at hiff hshape
  rcases hshape with h | h
  · subst h
    have hcm : (containsMatch inner untilP [] (.one n)).1 = none := by
      simp [containsMatch, containsAssert, hres, wrapResult, AssertResult.truthy]
    refine ⟨?_, ?_, hlist, hself⟩
    · exact iff_of_false (by simp [hcm]) (by rw [← hiff]; simp)
    · intro hne
      exact absurd hcm hne
  · subst h
    have hcm : (containsMatch inner untilP [] (.one n)).1 = some (.one n) := by
      simp [containsMatch, containsAssert, hres, wrapResult,
        AssertResult.truthy, AssertResult.asNode]
    refine ⟨?_, fun _ => hcm, hlist, hself⟩
    exact iff_of_true (by simp [hcm]) (hiff.mp rfl)

/-- C7 witness: `contains(identifier "leaf")` on `fxRoot`, whose only
descendant is the identifier `leaf`, matches and records `fxRoot`. -/
theorem C7_contains_search_witness :
    (containsMatch (.identifier "leaf") none [] (.one fxRoot)).1 = some (.one fxRoot) := by
  have hdesc : nodeDesc fxRoot = [fxLeaf] := by
    simp [nodeDesc, slotsDesc, slotDesc, listDesc, fxRoot, fxLeaf]
  have hids : ((nodeDesc fxRoot).map TsNode.id).Nodup := by
    rw [hdesc]
    simp
  have h := C7_contains_search (.identifier "leaf") none fxRoot hids
  apply h.2.1
  rw [h.1]
  refine ⟨[], fxLeaf, [], by simp [hdesc], rfl, ?_, by simp⟩
  simp [matchPat, assertPat, wrapResult, AssertResult.truthy, AssertResult.asNode,
    boolRes, fxLeaf, TsNode.kind, TsNode.text, SK.Identifier]

/-- `memMatches` tests identity-key membership. -/
theorem memMatches_iff (i : Input) (ms : List Input) :
    memMatches i ms = true ↔ inputKey i ∈ ms.map inputKey := by
  unfold memMatches
  rw [List.any_eq_true]
  constructor
  · rintro ⟨x, hx, hk⟩
    exact List.mem_map.mpr ⟨x, hx, of_decide_eq_true hk⟩
  · intro h
    obtain ⟨x, hx, he⟩ := List.mem_map.mp h
    exact ⟨x, hx, decide_eq_true he⟩

/-- Inserting into the `matches` Set adds the element's identity key. -/
theorem addMatch_keys (i : Input) (ms : List Input) :
    ((addMatch i ms).map inputKey).toFinset =
      insert (inputKey i) (ms.map inputKey).toFinset := by
  unfold addMatch
  split
  · rename_i h
    rw [memMatches_iff] at h
    rw [Finset.insert_eq_self.mpr (List.mem_toFinset.mpr h)]
  · rw [List.map_append]
    simp [List.toFinset_append, Finset.union_comm, Finset.insert_eq]

/-- Inserting into the `matches` Set preserves key distinctness. -/
theorem addMatch_nodup (i : Input) (ms : List Input)
    (h : (ms.map inputKey).Nodup) : ((addMatch i ms).map inputKey).Nodup := by
  unfold addMatch
  split
  · exact h
  · rename_i hmem
    rw [List.map_append, List.nodup_append]
    refine ⟨h, by simp, ?_⟩
    intro x hx hx'
    simp only [List.map_cons, List.map_nil, List.mem_singleton] at hx'
    exact hmem (by rw [memMatches_iff, ← hx']; exact hx)

/-- Mapping the left injection over a list of ids does not change the
number of distinct elements. -/
theorem toFinset_map_inl (l : List Nat) :
    ((l.map fun x => (Sum.inl x : Nat ⊕ List Nat)).toFinset).card = l.toFinset.card := by
  induction l with
  | nil => simp
  | cons x xs ih =>
    simp only [List.map_cons, List.toFinset_cons]
    rcases Decidable.em (x ∈ xs) with h | h
    · rw [Finset.insert_eq_self.mpr (by rw [List.mem_toFinset, List.mem_map]; exact ⟨x, h, rfl⟩),
        Finset.insert_eq_self.mpr (List.mem_toFinset.mpr h)]
      exact ih
    · have hmem : (Sum.inl x : Nat ⊕ List Nat) ∉
          (xs.map fun y => (Sum.inl y : Nat ⊕ List Nat)).toFinset := by
        rw [List.mem_toFinset, List.mem_map]
        rintro ⟨y, hy, he⟩
        injection he with he'
        exact h (he' ▸ hy)
      rw [Finset.card_insert_of_not_mem hmem,
        Finset.card_insert_of_not_mem (fun hx => h (List.mem_toFinset.mp hx)), ih]

/-- Key-set and distinctness invariant of a run of boolean-predicate
match calls: the accumulated key set is the starting key set plus one key
per distinct satisfying node. -/
theorem runSeq_keys (a : Input → AssertResult)
    (hbool : ∀ i, a i = .tru ∨ a i = .falsy) :
    ∀ (ns : List TsNode) (st : PatternState),
      (((runSeq (ns.map fun n => (a, Input.one n)) st).matchSet.map inputKey).toFinset =
        (st.matchSet.map inputKey).toFinset ∪
          ((ns.filter fun n => (a (Input.one n)).truthy).map fun n =>
            (Sum.inl n.id : Nat ⊕ List Nat)).toFinset) ∧
      ((st.matchSet.map inputKey).Nodup →
        ((runSeq (ns.map fun n => (a, Input.one n)) st).matchSet.map inputKey).Nodup) := by
  intro ns
  induction ns with
  | nil =>
    intro st
    exact ⟨by simp [runSeq], fun h => by simpa [runSeq] using h⟩
  | cons n rest ih =>
    intro st
    rcases hbool (Input.one n) with h | h
    · have hstep : (matchStep a st (Input.one n)).2.matchSet =
          addMatch (Input.one n) st.matchSet := by
        simp [matchStep, h, AssertResult.truthy, AssertResult.asNode]
      have hfil : (n :: rest).filter (fun n => (a (Input.one n)).truthy) =
          n :: rest.filter (fun n => (a (Input.one n)).truthy) := by
        simp [List.filter_cons, h, AssertResult.truthy]
      constructor
      · simp only [List.map_cons, runSeq]
        rw [(ih _).1, hstep, addMatch_keys, hfil]
        simp only [List.map_cons, List.toFinset_cons, inputKey]
        rw [Finset.insert_union, Finset.union_insert]
      · intro hnd
        simp only [List.map_cons, runSeq]
        exact (ih _).2 (by rw [hstep]; exact addMatch_nodup _ _ hnd)
    · have hstep : (matchStep a st (Input.one n)).2 = st := by
        simp [matchStep, h, AssertResult.truthy]
      have hfil : (n :: rest).filter (fun n => (a (Input.one n)).truthy) =
          rest.filter (fun n => (a (Input.one n)).truthy) := by
        simp [List.filter_cons, h, AssertResult.truthy]
      constructor
      · simp only [List.map_cons, runSeq, hstep]
        rw [(ih st).1, hfil]
      · intro hnd
        simp only [List.map_cons, runSeq, hstep]
        exact (ih st).2 hnd

/-- C8 counterexample: a pattern whose predicate redirects every match to
the same node (`fxRedirect`, a `when` pattern returning `nodeB`). Two
distinct nodes satisfy it (K = 2), yet after matching both the `matches`
set holds a single element — the recorded matches collide on the
redirect target, so `matches.size` is 1, not K. -/
theorem C8_redirect_count_cex :
    matchPat fxRedirect (.one nodeA) ≠ none ∧
    matchPat fxRedirect (.one nodeC) ≠ none ∧
    nodeA.id ≠ nodeC.id ∧
    (runSeq [(assertPat fxRedirect, .one nodeA), (assertPat fxRedirect, .one nodeC)]
      ⟨none, []⟩).matchSet.length = 1 := by
  refine ⟨?_, ?_, ?_, ?_⟩
  · simp [matchPat, assertPat, wrapResult, AssertResult.truthy, AssertResult.asNode, fxRedirect]
  · simp [matchPat, assertPat, wrapResult, AssertResult.truthy, AssertResult.asNode, fxRedirect]
  · simp [nodeA, nodeC, TsNode.id]
  · simp [runSeq, matchStep, assertPat, fxRedirect, AssertResult.truthy, AssertResult.asNode,
      addMatch, memMatches, inputKey, nodeA, nodeB, nodeC, TsNode.id]

/-- C8. The `matches` set only grows — every element present before any
sequence of `match` calls is still present after them — and it is
deduplicated by identity; for a pattern whose predicate returns only
plain booleans (never redirecting the match), running it over a sequence
of nodes leaves `matches.size` equal to the number of distinct (by
identity) satisfying nodes. -/
theorem C8_matchset_growth_and_count :
    (∀ (calls : List ((Input → AssertResult) × Input)) (st : PatternState),
      ∀ m ∈ st.matchSet, m ∈ (runSeq calls st).matchSet) ∧
    (∀ (a : Input → AssertResult) (ns : List TsNode),
      (∀ i, a i = .tru ∨ a i = .falsy) →
      (runSeq (ns.map fun n => (a, Input.one n)) ⟨none, []⟩).matchSet.length =
        ((ns.filter fun n => (a (Input.one n)).truthy).map TsNode.id).toFinset.card) := by
  constructor
  · intro calls
    induction calls with
    | nil =>
      intro st m hm
      simpa [runSeq] using hm
    | cons c rest ih =>
      intro st m hm
      rcases c with ⟨a, i⟩
      simp only [runSeq]
      apply ih
      simp only [matchStep]
      split
      · show m ∈ addMatch _ st.matchSet
        unfold addMatch
        split
        · exact hm
        · exact List.mem_append_left _ hm
      · exact hm
  · intro a ns hbool
    have hk := runSeq_keys a hbool ns ⟨none, []⟩
    have hnd := hk.2 (by simp)
    rw [← List.length_map _ inputKey, ← List.toFinset_card_of_nodup hnd, hk.1]
    have hmm : ((ns.filter fun n => (a (Input.one n)).truthy).map fun n =>
        (Sum.inl n.id : Nat ⊕ List Nat)) =
        ((ns.filter fun n => (a (Input.one n)).truthy).map TsNode.id).map
          (fun x => (Sum.inl x : Nat ⊕ List Nat)) := by
      rw [List.map_map]
      rfl
    rw [hmm]
    simp only [show (⟨none, []⟩ : PatternState).matchSet = [] from rfl, List.map_nil,
      List.toFinset_nil, Finset.empty_union]
    exact toFinset_map_inl _

/-- C8 witness: an always-true boolean predicate over the node sequence
`[nodeA, nodeC, nodeA]` (two distinct ids) accumulates exactly two
matches, and an element already in the set survives a run. -/
theorem C8_matchset_witness :
    (runSeq ([nodeA, nodeC, nodeA].map fun n => (fun _ => AssertResult.tru, Input.one n))
      ⟨none, []⟩).matchSet.length = 2 ∧
    Input.one nodeA ∈ (runSeq [] (⟨none, [Input.one nodeA]⟩ : PatternState)).matchSet := by
  constructor
  · rw [C8_matchset_growth_and_count.2 (fun _ => AssertResult.tru) [nodeA, nodeC, nodeA]
      (fun _ => Or.inl rfl)]
    simp [AssertResult.truthy, List.filter, nodeA, nodeC, TsNode.id]
  · exact C8_matchset_growth_and_count.1 [] ⟨none, [Input.one nodeA]⟩ (Input.one nodeA)
      (by simp)

/-- C9 counterexample: `ast.any`, a leaf combinator, matches a node list
(its predicate is `() => true`, which never inspects the input shape). -/
theorem C9_any_matches_list_cex :
    matchPat .any (.list [nodeA]) = some (.list [nodeA]) := by
  simp [matchPat, assertPat, wrapResult, AssertResult.truthy, AssertResult.asNode]

/-- C9. Input-shape discipline of the combinators other than `ast.any`
and `ast.when`: the leaf and structural combinators never match a node
list, and the collection combinators never match a single node. -/
theorem C9_input_shape (k ty : Nat) (props : Option (List (String × Pat))) (nm : String)
    (sv : Option String) (nv : Option Int) (bv : Option Bool)
    (mn : Nat) (mx : Option Nat) (p : Pat) (op : Option Pat)
    (pseq : List Pat) (rp : Pat) (l : List TsNode) (n : TsNode) :
    matchPat (.kind k) (.list l) = none ∧
    matchPat (.node ty props) (.list l) = none ∧
    matchPat (.identifier nm) (.list l) = none ∧
    matchPat (.string sv) (.list l) = none ∧
    matchPat (.number nv) (.list l) = none ∧
    matchPat (.boolean bv) (.list l) = none ∧
    matchPat .nullLit (.list l) = none ∧
    matchPat .undefinedLit (.list l) = none ∧
    matchPat (.tupleFixed pseq) (.one n) = none ∧
    matchPat (.tupleRest pseq rp) (.one n) = none ∧
    matchPat (.rest p) (.one n) = none ∧
    matchPat (.every p mn mx) (.one n) = none ∧
    matchPat (.someP p mn mx) (.one n) = none ∧
    matchPat (.nodeList op mn mx) (.one n) = none := by
  refine ⟨?_, ?_, ?_, ?_, ?_, ?_, ?_, ?_, ?_, ?_, ?_, ?_, ?_, ?_⟩ <;>
    simp [matchPat, assertPat, wrapResult, AssertResult.truthy]

/-- C10. A `max` bound equal to 0 is falsy in the guard
`_opts.max && nodeList.length > _opts.max`, so the upper-bound check is
skipped entirely: no list length fails the max test, and `ast.every`,
`ast.some` and `ast.nodeList` built with `max = 0` match exactly as if no
max bound had been given (outcome decided by the min bound and the
element-wise condition alone). -/
theorem C10_max_zero_ignored :
    (∀ (len : Nat), maxExceeded (some 0) len = false) ∧
    (∀ (p : Pat) (mn : Nat) (i : Input),
      matchPat (.every p mn (some 0)) i = matchPat (.every p mn none) i) ∧
    (∀ (p : Pat) (mn : Nat) (i : Input),
      matchPat (.someP p mn (some 0)) i = matchPat (.someP p mn none) i) ∧
    (∀ (op : Option Pat) (mn : Nat) (i : Input),
      matchPat (.nodeList op mn (some 0)) i = matchPat (.nodeList op mn none) i) := by
  have hmax : ∀ len, maxExceeded (some 0) len = false := by
    intro len
    simp [maxExceeded]
  have ha : ∀ (P Q : Pat) (i : Input), assertPat P i = assertPat Q i →
      matchPat P i = matchPat Q i := by
    intro P Q i h
    rw [matchPat_def, matchPat_def, h]
  refine ⟨hmax, ?_, ?_, ?_⟩
  · intro p mn i
    apply ha
    cases i with
    | one n => simp [assertPat]
    | list l => simp [assertPat, maxExceeded]
  · intro p mn i
    apply ha
    cases i with
    | one n => simp [assertPat]
    | list l => simp [assertPat, maxExceeded]
  · intro op mn i
    apply ha
    cases i with
    | one n => cases op <;> simp [assertPat]
    | list l => cases op <;> simp [assertPat, maxExceeded]

end Typemorph
